import Mathlib

/-!
Verification of the nntp2sql ingestion pipeline.

C strings are embedded as lists of characters; the network transport is
embedded as the list of characters an NNTP server would deliver, with the
end of that list standing for a closed or failing transport.  Machine
integers are embedded as Int (the values handled here are small protocol
counters, far from any overflow).  Each definition below follows one C
function of the repository; the comment on the definition names it.
-/

namespace Nntp2Sql

/-! ### Character classification, following ctype.h on ASCII input -/

/-- C isspace on the six ASCII whitespace characters. -/
def c_isspace (c : Char) : Bool :=
  c == ' ' || c == '\t' || c == '\n' || c == '\x0b' || c == '\x0c' || c == '\r'

/-- C isdigit. -/
def c_isdigit (c : Char) : Bool :=
  48 ≤ c.toNat && c.toNat ≤ 57

/-- Numeric value of an ASCII digit character. -/
def digitVal (c : Char) : Nat := c.toNat - 48

/-- The ASCII digit character for a value below ten. -/
def digitChar : Nat → Char
  | 0 => '0' | 1 => '1' | 2 => '2' | 3 => '3' | 4 => '4'
  | 5 => '5' | 6 => '6' | 7 => '7' | 8 => '8' | 9 => '9'
  | _ => '0'

/-! ### C atoi, as used throughout main.c and nntp.c -/

/-- Digit-accumulation loop of atoi: consume leading decimal digits,
stopping at the first non-digit. -/
def atoiDigitsAcc : List Char → Nat → Nat
  | [], acc => acc
  | c :: rest, acc =>
    if c_isdigit c then atoiDigitsAcc rest (acc * 10 + digitVal c) else acc

/-- C atoi: skip leading whitespace, then an optional sign, then decimal
digits; no digits yields 0. -/
def atoi (s : List Char) : Int :=
  let s1 := s.dropWhile c_isspace
  match s1 with
  | [] => 0
  | c :: rest =>
    if c = '-' then -(atoiDigitsAcc rest 0 : Int)
    else if c = '+' then (atoiDigitsAcc rest 0 : Int)
    else (atoiDigitsAcc (c :: rest) 0 : Int)

/-- Decimal rendering of a natural number, fuel-driven so that it reduces
structurally; the fuel is always taken one above the number itself. -/
def natDecimalDigitsGo : Nat → Nat → List Char
  | 0, _ => []
  | fuel + 1, n =>
    if n < 10 then [digitChar n]
    else natDecimalDigitsGo fuel (n / 10) ++ [digitChar (n % 10)]

/-- Decimal rendering of a natural number as a character list. -/
def natDecimalDigits (n : Nat) : List Char := natDecimalDigitsGo (n + 1) n

/-! ### strtok-style tokenisation (strtok_r with a one-character delimiter
set).  strtok treats runs of delimiters as one separator and never yields
an empty token. -/

/-- Accumulator loop of the tokeniser; the accumulator holds the current
token reversed. -/
def ctokAux (d : Char) : List Char → List Char → List (List Char)
  | [], acc => if acc = [] then [] else [acc.reverse]
  | c :: rest, acc =>
    if c = d then
      if acc = [] then ctokAux d rest []
      else acc.reverse :: ctokAux d rest []
    else ctokAux d rest (c :: acc)

/-- All strtok_r tokens of a character list for a single delimiter. -/
def tokens (d : Char) (s : List Char) : List (List Char) := ctokAux d s []

/-! ### Wire framing (src/nntp.c)

The transport is the list of characters the server delivers; reading past
its end is the C case where recv or SSL_read returns zero or negative. -/

/-- The buffer size BUFSZ of main.c and nntp.h. -/
def BUFSZ : Nat := 8192

/-- Does the buffer end in CR LF?  This is the test
buf at pos-2 equal CR and buf at pos-1 equal LF of conn_readline. -/
def crlfEnd (l : List Char) : Bool :=
  match l.reverse with
  | b :: a :: _ => b == '\n' && a == '\r'
  | _ => false

/-- Loop of conn_readline: take one character at a time while there is
room (pos + 1 < bufsz), stop after a CR LF pair; transport end before
that is the -1 error return, here the value none.  When the buffer fills
without CR LF the C code falls out of the loop and returns pos, a
success: that is the some result whose first component lacks CR LF. -/
def readline_loop (bufsz : Nat) : List Char → List Char → Option (List Char × List Char)
  | [], buf => if buf.length + 1 < bufsz then none else some (buf, [])
  | ch :: rest, buf =>
    if buf.length + 1 < bufsz then
      if crlfEnd (buf ++ [ch]) then some (buf ++ [ch], rest)
      else readline_loop bufsz rest (buf ++ [ch])
    else some (buf, ch :: rest)

/-- conn_readline of nntp.c: the line (with its CR LF terminator, which
the C code stores in the buffer) and the rest of the transport, or none
for the -1 error return. -/
def conn_readline (input : List Char) (bufsz : Nat) : Option (List Char × List Char) :=
  readline_loop bufsz input []

/-- Strip the trailing run of CR and LF characters, as the line-cleanup
loop of conn_read_multiline does. -/
def stripCRLF (l : List Char) : List Char :=
  (l.reverse.dropWhile (fun c => c == '\r' || c == '\n')).reverse

/-- Dot-unstuffing of conn_read_multiline: when the line starts with a
dot, shift the line left by one (memmove), removing exactly that dot. -/
def dotUnstuff (l : List Char) : List Char :=
  if l.head? = some '.' then l.tail else l

/-- Loop of conn_read_multiline, producing the logical content lines in
order.  Each iteration reads one line into the BUFSZ buffer, strips the
trailing CR LF, stops on the lone-dot terminator without keeping it, and
otherwise appends the dot-unstuffed line.  A transport error frees the
partial buffer and returns NULL, here none.  The fuel argument only pays
for structural recursion: one unit per character of input suffices. -/
def read_multiline_go : Nat → List Char → Option (List (List Char))
  | 0, _ => none
  | fuel + 1, input =>
    match conn_readline input BUFSZ with
    | none => none
    | some (raw, rest) =>
      let line := stripCRLF raw
      if line = ['.'] then some []
      else
        match read_multiline_go fuel rest with
        | none => none
        | some cs => some (dotUnstuff line :: cs)

/-- The sequence of content lines conn_read_multiline accumulates. -/
def multiline_lines (input : List Char) : Option (List (List Char)) :=
  read_multiline_go (input.length + 1) input

/-- conn_read_multiline of nntp.c: the content lines joined with a
newline after each one, exactly the buffer the C function returns. -/
def conn_read_multiline (input : List Char) : Option (List Char) :=
  match multiline_lines input with
  | none => none
  | some cs => some ((cs.map (fun l => l ++ ['\n'])).flatten)

/-! ### sscanf and the protocol client (src/nntp.c) -/

/-- Does the list start with a decimal digit? -/
def startsDigit (l : List Char) : Bool :=
  match l with
  | c :: _ => c_isdigit c
  | [] => false

/-- Consume leading decimal digits, returning their value and the rest. -/
def scanDigits : List Char → Nat → Nat × List Char
  | [], acc => (acc, [])
  | c :: rest, acc =>
    if c_isdigit c then scanDigits rest (acc * 10 + digitVal c) else (acc, c :: rest)

/-- One percent-d conversion after the optional sign: fails (matching
failure of sscanf) when no digit follows. -/
def scanIntFrom (s : List Char) (neg : Bool) : Option (Int × List Char) :=
  if startsDigit s then
    let r := scanDigits s 0
    some ((if neg then -(r.1 : Int) else (r.1 : Int)), r.2)
  else none

/-- One percent-d conversion of sscanf: skip whitespace, optional sign,
then digits. -/
def scanInt (s : List Char) : Option (Int × List Char) :=
  let s1 := s.dropWhile c_isspace
  match s1 with
  | [] => none
  | c :: rest =>
    if c = '-' then scanIntFrom rest true
    else if c = '+' then scanIntFrom rest false
    else scanIntFrom (c :: rest) false

/-- The sscanf call of nntp_group, with format string of a skipped int
followed by three ints.  Unmatched conversions leave the corresponding
C variables at their initial 0. -/
def scan_group (s : List Char) : Int × Int × Int :=
  match scanInt s with
  | none => (0, 0, 0)
  | some (_, r1) =>
    match scanInt r1 with
    | none => (0, 0, 0)
    | some (a, r2) =>
      match scanInt r2 with
      | none => (a, 0, 0)
      | some (b, r3) =>
        match scanInt r3 with
        | none => (a, b, 0)
        | some (c, _) => (a, b, c)

/-- nntp_group of nntp.c: read the reply line; on a 2xx code parse count,
first and last from it; otherwise leave the three output parameters (the
final three components) at the values the caller passed in.  The first
component is the returned status code, -1 on read failure. -/
def nntp_group (input : List Char) (count firstv lastv : Int) : Int × Int × Int × Int :=
  match conn_readline input BUFSZ with
  | none => (-1, count, firstv, lastv)
  | some (buf, _) =>
    let code := atoi buf
    if 200 ≤ code ∧ code < 300 then
      let s := scan_group buf
      (code, s.1, s.2.1, s.2.2)
    else (code, count, firstv, lastv)

/-! ### Overview parser (parse_xover_line of main.c) -/

/-- The record parse_xover_line fills through its output pointers. -/
structure XoverFields where
  artnum : Int
  subject : List Char
  author : List Char
  date : List Char
  message_id : List Char
  references : List Char
  bytes : Int
  lines : Int
deriving DecidableEq

/-- parse_xover_line of main.c: tokenise the line at tabs with strtok_r,
keep at most nine tokens, and fill the eight fields positionally; a
missing string field becomes empty, a missing integer field 0 (artnum
keeps the initial 0 of the caller when the line yields no token at all). -/
def parse_xover_line (line : List Char) : XoverFields :=
  let fs := (tokens '\t' line).take 9
  { artnum := match fs.get? 0 with | some f0 => atoi f0 | none => 0
    subject := fs.getD 1 []
    author := fs.getD 2 []
    date := fs.getD 3 []
    message_id := fs.getD 4 []
    references := fs.getD 5 []
    bytes := match fs.get? 6 with | some f6 => atoi f6 | none => 0
    lines := match fs.get? 7 with | some f7 => atoi f7 | none => 0 }

/-- The eight-field overview tuple of the specification, with the three
numeric fields as naturals (artnum positive, bytes and lines
non-negative). -/
structure XoverTuple where
  artnum : Nat
  subject : List Char
  author : List Char
  date : List Char
  message_id : List Char
  references : List Char
  bytes : Nat
  lines : Nat
deriving DecidableEq

/-- Modelled from the spec: tab-joining the eight-field tuple, numeric
fields rendered in decimal.  This is the spec-side construction the
left-inverse law quantifies over, not code of the repository. -/
def join8 (t : XoverTuple) : List Char :=
  natDecimalDigits t.artnum ++ '\t' ::
    (t.subject ++ '\t' ::
      (t.author ++ '\t' ::
        (t.date ++ '\t' ::
          (t.message_id ++ '\t' ::
            (t.references ++ '\t' ::
              (natDecimalDigits t.bytes ++ '\t' :: natDecimalDigits t.lines))))))

/-- The tuple read back as the record parse_xover_line produces. -/
def tupleToFields (t : XoverTuple) : XoverFields :=
  { artnum := (t.artnum : Int)
    subject := t.subject
    author := t.author
    date := t.date
    message_id := t.message_id
    references := t.references
    bytes := (t.bytes : Int)
    lines := (t.lines : Int) }

/-! ### Header parser (extract_from_headers of main.c) -/

/-- The record extract_from_headers fills; fromF embeds the C variable
named from. -/
structure HeadFields where
  subject : List Char
  fromF : List Char
  date : List Char
  message_id : List Char
  references : List Char
  bytes : Int
  lines : Int
deriving DecidableEq

/-- The initial values extract_from_headers assigns before scanning. -/
def initHeadFields : HeadFields :=
  { subject := [], fromF := [], date := [], message_id := [], references := []
    bytes := 0, lines := 0 }

/-- strncasecmp equal on the length of the second list: case-insensitive
match of a leading key. -/
def startsWithCI : List Char → List Char → Bool
  | _, [] => true
  | [], _ :: _ => false
  | c :: cs, k :: ks => (c.toLower == k.toLower) && startsWithCI cs ks

/-- The seven header keys extract_from_headers recognises. -/
def subjectKey : List Char := "Subject:".data
def fromKey : List Char := "From:".data
def dateKey : List Char := "Date:".data
def messageIdKey : List Char := "Message-ID:".data
def referencesKey : List Char := "References:".data
def linesKey : List Char := "Lines:".data
def bytesKey : List Char := "Bytes:".data

/-- One loop iteration of extract_from_headers: strip leading whitespace,
match the known keys case-insensitively, and on a string key take the
remainder with its leading spaces stripped; on Lines or Bytes run atoi on
the remainder; anything else changes nothing. -/
def header_step (st : HeadFields) (line0 : List Char) : HeadFields :=
  let line := line0.dropWhile c_isspace
  if startsWithCI line subjectKey then
    { st with subject := (line.drop 8).dropWhile (fun c => c == ' ') }
  else if startsWithCI line fromKey then
    { st with fromF := (line.drop 5).dropWhile (fun c => c == ' ') }
  else if startsWithCI line dateKey then
    { st with date := (line.drop 5).dropWhile (fun c => c == ' ') }
  else if startsWithCI line messageIdKey then
    { st with message_id := (line.drop 11).dropWhile (fun c => c == ' ') }
  else if startsWithCI line referencesKey then
    { st with references := (line.drop 11).dropWhile (fun c => c == ' ') }
  else if startsWithCI line linesKey then
    { st with lines := atoi (line.drop 6) }
  else if startsWithCI line bytesKey then
    { st with bytes := atoi (line.drop 6) }
  else st

/-- extract_from_headers of main.c: strtok the block at newlines and scan
each line in order. -/
def extract_from_headers (hdrs : List Char) : HeadFields :=
  (tokens '\n' hdrs).foldl header_step initHeadFields

/-- True when the stripped line matches none of the seven known keys. -/
def matchesNoHeaderKey (line : List Char) : Bool :=
  !(startsWithCI line subjectKey) && !(startsWithCI line fromKey) &&
  !(startsWithCI line dateKey) && !(startsWithCI line messageIdKey) &&
  !(startsWithCI line referencesKey) && !(startsWithCI line linesKey) &&
  !(startsWithCI line bytesKey)

/-! ### Persistence layer (db_insert_article and db_insert_group of
main.c)

The relational store is embedded as association lists: the articles
table keyed by the pair of group name and article number (its unique
index), the groups table keyed by name.  An UPDATE with a WHERE clause
on the key rewrites every matching row and reports the affected-row
count; an INSERT appends a row. -/

/-- One articles row (the non-key columns bound by the statements). -/
structure ArticleRow where
  subject : List Char
  author : List Char
  date : List Char
  message_id : List Char
  references : List Char
  bytes : Int
  line_count : Int
deriving DecidableEq

/-- One groups row (the non-key columns). -/
structure GroupRow where
  article_count : Int
  firstArt : Int
  lastArt : Int
deriving DecidableEq

abbrev ArticlesTable : Type := List ((List Char × Int) × ArticleRow)

abbrev GroupsTable : Type := List (List Char × GroupRow)

/-- The UPDATE ... WHERE key statement on a keyed table: rewrite the
matching rows and report how many were affected. -/
def tableUpdate {κ ρ : Type} [DecidableEq κ] (t : List (κ × ρ)) (k : κ) (r : ρ) :
    List (κ × ρ) × Nat :=
  (t.map (fun e => if e.1 = k then (e.1, r) else e),
   (t.filter (fun e => decide (e.1 = k))).length)

/-- Number of rows of a keyed table holding the key. -/
def matchCount {κ ρ : Type} [DecidableEq κ] (t : List (κ × ρ)) (k : κ) : Nat :=
  (t.filter (fun e => decide (e.1 = k))).length

/-- The statements the persistence layer issues, in order, together with
the warning it logs when an update found nothing and upsert is off. -/
inductive DbAction
  | updateArticle (k : List Char × Int) (r : ArticleRow)
  | insertArticle (k : List Char × Int) (r : ArticleRow)
  | warnArticleNotFound (k : List Char × Int)
  | updateGroup (name : List Char) (r : GroupRow)
  | insertGroup (name : List Char) (r : GroupRow)
  | warnGroupNotFound (name : List Char)
deriving DecidableEq

/-- db_insert_article of main.c.  The prepared flag selects the
prepared-statement path (both backends run the same update-then-insert
algorithm there): execute the update, read the affected-row count; if it
is zero insert when upsert is on, warn and leave the table alone when it
is off.  With prepared false the legacy fallback issues the raw UPDATE
and, only when upsert is on, unconditionally issues the raw INSERT; when
the key already exists the unique index rejects that INSERT, which
db_exec logs, leaving the table unchanged. -/
def db_insert_article (prepared upsert : Bool) (t : ArticlesTable)
    (grp : List Char) (artnum : Int) (r : ArticleRow) : ArticlesTable × List DbAction :=
  let k := (grp, artnum)
  let u := tableUpdate t k r
  if prepared then
    if u.2 = 0 then
      if upsert then (u.1 ++ [(k, r)], [.updateArticle k r, .insertArticle k r])
      else (u.1, [.updateArticle k r, .warnArticleNotFound k])
    else (u.1, [.updateArticle k r])
  else
    if upsert then
      if u.2 = 0 then (u.1 ++ [(k, r)], [.updateArticle k r, .insertArticle k r])
      else (u.1, [.updateArticle k r, .insertArticle k r])
    else (u.1, [.updateArticle k r])

/-- db_insert_group of main.c (the prepared SQLite path; the MySQL branch
runs the same update-then-insert algorithm on the same key): update the
row for the name, and on zero affected rows insert when upsert is on,
warn otherwise. -/
def db_insert_group (upsert : Bool) (t : GroupsTable) (name : List Char)
    (count firstv lastv : Int) : GroupsTable × List DbAction :=
  let row : GroupRow := ⟨count, firstv, lastv⟩
  let u := tableUpdate t name row
  if u.2 = 0 then
    if upsert then (u.1 ++ [(name, row)], [.updateGroup name row, .insertGroup name row])
    else (u.1, [.updateGroup name row, .warnGroupNotFound name])
  else (u.1, [.updateGroup name row])

/-! ### Orchestrator (main of main.c) -/

/-- The fetch-range computation of main: with a positive limit smaller
than the range size, start at last minus limit plus one, clamped to at
least first. -/
def compute_fetch_range (limit firstv lastv : Int) : Int × Int :=
  if 0 < limit then
    if limit < lastv - firstv + 1 then
      let ff := lastv - limit + 1
      (if ff < firstv then firstv else ff, lastv)
    else (firstv, lastv)
  else (firstv, lastv)

/-- The bounded work queue of main.c: a fixed-capacity array filled from
the front. -/
structure WorkQueue where
  items : List Int
  capacity : Nat
deriving DecidableEq

/-- queue_init. -/
def queue_init (capacity : Nat) : WorkQueue := ⟨[], capacity⟩

/-- queue_push: append while the tail index is below capacity, silently
drop otherwise. -/
def queue_push (q : WorkQueue) (v : Int) : WorkQueue :=
  if q.items.length < q.capacity then { q with items := q.items ++ [v] } else q

/-- The enqueue loop of main: push a, a+1, ... for the given number of
iterations. -/
def enqueue_range (q : WorkQueue) (a : Int) : Nat → WorkQueue
  | 0 => q
  | n + 1 => enqueue_range (queue_push q a) (a + 1) n

/-- The per-article path of main: initialise the queue with capacity
total = fetch_last - fetch_first + 1 and push every article number of
the fetch range in increasing order. -/
def main_enqueue (ff fl : Int) : WorkQueue :=
  enqueue_range (queue_init (fl + 1 - ff).toNat) ff (fl + 1 - ff).toNat

/-- The ascending integer enumeration lo, lo+1, ..., of the given
length. -/
def ascRange (lo : Int) (n : Nat) : List Int :=
  (List.range n).map (fun (i : Nat) => lo + (i : Int))

/-- Outcome of the group-selection phase of main: a fatal exit (GROUP
failed, exit code ERR_NNTP_CMD = 14), a clean exit 0 for an empty group,
or the hand-off to the fetch paths with the computed range. -/
inductive PhaseResult
  | fatal (code : Int)
  | doneEmpty (g : GroupsTable) (a : ArticlesTable) (exitCode : Int)
  | fetch (g : GroupsTable) (a : ArticlesTable) (fetchFirst fetchLast : Int)
deriving DecidableEq

/-- Lines 1078 to 1096 of main.c: select the group reading the reply from
the transport with count, first, last initialised to 0; on a non-2xx code
exit fatally with ERR_NNTP_CMD; otherwise record the group row, exit 0
when the count is zero, and otherwise compute the fetch range and
continue. -/
def main_group_phase (upsert : Bool) (limit : Int) (input : List Char)
    (name : List Char) (g : GroupsTable) (a : ArticlesTable) : PhaseResult :=
  let r := nntp_group input 0 0 0
  if r.1 < 200 ∨ 300 ≤ r.1 then .fatal 14
  else
    let g' := (db_insert_group upsert g name r.2.1 r.2.2.1 r.2.2.2).1
    if r.2.1 = 0 then .doneEmpty g' a 0
    else
      let fr := compute_fetch_range limit r.2.2.1 r.2.2.2
      .fetch g' a fr.1 fr.2

/-! ### Worker (head_worker of main.c) -/

/-- The HEAD retry loop of head_worker, returning the first non-NULL
response together with the number of HEAD commands issued.  The C loop
runs while attempt is at most retries; the first argument counts its
remaining iterations, retries + 1 - attempt, so the loop is entered as
head_try f (retries + 1) 0.  The response oracle f maps the attempt
index to the result of nntp_head on the own session of the worker. -/
def head_try (f : Nat → Option (List Char)) : Nat → Nat → Option (List Char) × Nat
  | 0, _ => (none, 0)
  | remaining + 1, attempt =>
    match f attempt with
    | some h => (some h, 1)
    | none =>
      let r := head_try f remaining (attempt + 1)
      (r.1, r.2 + 1)

/-- The article row head_worker hands to db_insert_article from the
parsed header fields. -/
def rowFromHead (h : HeadFields) : ArticleRow :=
  ⟨h.subject, h.fromF, h.date, h.message_id, h.references, h.bytes, h.lines⟩

/-- The drain loop of head_worker over the article numbers it pops: run
the HEAD retry loop; on final failure skip the article (continue), else
parse the headers and persist the row under the writer mutex.  The
oracle resp gives, per article number and attempt index, the response
nntp_head returns. -/
def head_worker_run (prepared upsert : Bool) (resp : Int → Nat → Option (List Char))
    (retries : Nat) (grp : List Char) : List Int → ArticlesTable → ArticlesTable
  | [], t => t
  | n :: rest, t =>
    match (head_try (resp n) (retries + 1) 0).1 with
    | none => head_worker_run prepared upsert resp retries grp rest t
    | some hdrs =>
      let row := rowFromHead (extract_from_headers hdrs)
      head_worker_run prepared upsert resp retries grp rest
        (db_insert_article prepared upsert t grp n row).1

/-! ### Spec-side wire encodings for the multi-line framing laws -/

/-- The CR LF pair. -/
def crlf : List Char := ['\r', '\n']

/-- Modelled from the spec: a dot-terminated multi-line body as the
server sends it, each logical line followed by CR LF and the block closed
by a lone dot line. -/
def encodeWire : List (List Char) → List Char
  | [] => '.' :: crlf
  | l :: ls => l ++ crlf ++ encodeWire ls

/-- Modelled from the spec: a multi-line body cut off before its
terminator; the transport closes after the listed complete lines and a
trailing fragment without CR LF. -/
def encodeNoTerm : List (List Char) → List Char → List Char
  | [], frag => frag
  | l :: ls, frag => l ++ crlf ++ encodeNoTerm ls frag

/-- Is there an adjacent CR LF pair anywhere in the list? -/
def hasCRLF : List Char → Bool
  | [] => false
  | [_] => false
  | a :: b :: t => (a == '\r' && b == '\n') || hasCRLF (b :: t)

/-- Does the list avoid ending in CR or LF (vacuously true when
empty)? -/
def lastNotCRLF (l : List Char) : Bool :=
  match l.getLast? with
  | some c => !(c == '\r') && !(c == '\n')
  | none => true

/-- A logical line a server may send inside a multi-line body without
tripping framing: no embedded CR LF pair, not the bare terminator dot,
short enough for the BUFSZ line buffer, and not ending in a stray CR or
LF. -/
def lineOk (l : List Char) : Prop :=
  hasCRLF l = false ∧ l ≠ ['.'] ∧ l.length ≤ 8189 ∧ lastNotCRLF l = true

instance (l : List Char) : Decidable (lineOk l) := by
  unfold lineOk; infer_instance

/-! ## Helper lemmas -/

/-! ### Tokeniser -/

theorem ctokAux_append (d : Char) (x y : List Char) :
    ∀ acc, ctokAux d (x ++ d :: y) acc = ctokAux d x acc ++ ctokAux d y [] := by
  induction x with
  | nil =>
    intro acc
    by_cases h : acc = [] <;> simp [ctokAux, h]
  | cons c x ih =>
    intro acc
    by_cases hc : c = d
    · subst hc
      by_cases h : acc = [] <;> simp [ctokAux, h, ih]
    · simp [ctokAux, hc, ih]

theorem ctokAux_single (d : Char) (t : List Char) (hfree : ∀ c ∈ t, c ≠ d) :
    ∀ acc, ctokAux d t acc =
      if acc.reverse ++ t = [] then [] else [acc.reverse ++ t] := by
  induction t with
  | nil =>
    intro acc
    by_cases h : acc = [] <;> simp [ctokAux, h]
  | cons c t ih =>
    intro acc
    have hc : c ≠ d := hfree c (List.mem_cons_self c t)
    have ih' := ih (fun x hx => hfree x (List.mem_cons_of_mem c hx)) (c :: acc)
    simp only [ctokAux, if_neg hc]
    rw [ih']
    simp

theorem tokens_single (d : Char) (t : List Char) (hne : t ≠ [])
    (hfree : ∀ c ∈ t, c ≠ d) : tokens d t = [t] := by
  unfold tokens
  rw [ctokAux_single d t hfree []]
  simp [hne]

theorem tokens_cons (d : Char) (t rest : List Char) (hne : t ≠ [])
    (hfree : ∀ c ∈ t, c ≠ d) :
    tokens d (t ++ d :: rest) = t :: tokens d rest := by
  unfold tokens
  rw [ctokAux_append, ctokAux_single d t hfree []]
  simp [hne]

/-! ### Digits and atoi -/

theorem digitChar_isdigit (n : Nat) (h : n < 10) : c_isdigit (digitChar n) = true := by
  interval_cases n <;> decide

theorem digitVal_digitChar (n : Nat) (h : n < 10) : digitVal (digitChar n) = n := by
  interval_cases n <;> decide

theorem isdigit_not_space (c : Char) (h : c_isdigit c = true) : c_isspace c = false := by
  by_contra hs
  have hs' : c_isspace c = true := by
    cases hcs : c_isspace c
    · exact absurd hcs hs
    · rfl
  unfold c_isspace at hs'
  simp only [Bool.or_eq_true, beq_iff_eq] at hs'
  rcases hs' with ((((rfl | rfl) | rfl) | rfl) | rfl) | rfl <;> simp [c_isdigit] at h

theorem isdigit_ne (c e : Char) (h : c_isdigit c = true) (he : c_isdigit e = false) :
    c ≠ e := by
  intro hce
  rw [hce, he] at h
  exact Bool.false_ne_true h

theorem atoiDigitsAcc_append (xs ys : List Char)
    (hd : ∀ c ∈ xs, c_isdigit c = true) :
    ∀ acc, atoiDigitsAcc (xs ++ ys) acc = atoiDigitsAcc ys (atoiDigitsAcc xs acc) := by
  induction xs with
  | nil => intro acc; simp [atoiDigitsAcc]
  | cons c xs ih =>
    intro acc
    have hc := hd c (List.mem_cons_self c xs)
    simp only [List.cons_append, atoiDigitsAcc, hc, if_true]
    exact ih (fun x hx => hd x (List.mem_cons_of_mem c hx)) _

theorem natDecimalDigitsGo_isdigit :
    ∀ fuel n, n < fuel → ∀ c ∈ natDecimalDigitsGo fuel n, c_isdigit c = true := by
  intro fuel
  induction fuel with
  | zero => intro n h; omega
  | succ fuel ih =>
    intro n h c hc
    by_cases h10 : n < 10
    · simp only [natDecimalDigitsGo, if_pos h10, List.mem_singleton] at hc
      subst hc
      exact digitChar_isdigit n h10
    · simp only [natDecimalDigitsGo, if_neg h10, List.mem_append,
        List.mem_singleton] at hc
      rcases hc with hc | hc
      · have hdiv : n / 10 < fuel := by
          have := Nat.div_lt_self (by omega : 0 < n) (by omega : 1 < 10)
          omega
        exact ih (n / 10) hdiv c hc
      · subst hc
        exact digitChar_isdigit _ (Nat.mod_lt n (by omega))

theorem natDecimalDigitsGo_ne_nil :
    ∀ fuel n, n < fuel → natDecimalDigitsGo fuel n ≠ [] := by
  intro fuel
  induction fuel with
  | zero => intro n h; omega
  | succ fuel _ =>
    intro n _
    by_cases h10 : n < 10 <;> simp [natDecimalDigitsGo, h10]

theorem natDecimalDigitsGo_val :
    ∀ fuel n, n < fuel → ∀ acc,
      atoiDigitsAcc (natDecimalDigitsGo fuel n) acc =
        acc * 10 ^ (natDecimalDigitsGo fuel n).length + n := by
  intro fuel
  induction fuel with
  | zero => intro n h; omega
  | succ fuel ih =>
    intro n h acc
    by_cases h10 : n < 10
    · simp [natDecimalDigitsGo, h10, atoiDigitsAcc, digitChar_isdigit n h10,
        digitVal_digitChar n h10]
    · have hdiv : n / 10 < fuel := by
        have := Nat.div_lt_self (by omega : 0 < n) (by omega : 1 < 10)
        omega
      have hdigs := natDecimalDigitsGo_isdigit fuel (n / 10) hdiv
      simp only [natDecimalDigitsGo, if_neg h10]
      rw [atoiDigitsAcc_append _ _ hdigs, ih (n / 10) hdiv]
      have hmod : n % 10 < 10 := Nat.mod_lt n (by omega)
      simp only [atoiDigitsAcc, digitChar_isdigit _ hmod, if_true,
        digitVal_digitChar _ hmod, List.length_append, List.length_singleton]
      have hdm : 10 * (n / 10) + n % 10 = n := Nat.div_add_mod n 10
      calc (acc * 10 ^ (natDecimalDigitsGo fuel (n / 10)).length + n / 10) * 10 + n % 10
          = acc * (10 ^ (natDecimalDigitsGo fuel (n / 10)).length * 10) +
              (10 * (n / 10) + n % 10) := by ring
        _ = acc * 10 ^ ((natDecimalDigitsGo fuel (n / 10)).length + 1) + n := by
              rw [hdm, pow_succ]

theorem natDecimalDigits_isdigit (n : Nat) :
    ∀ c ∈ natDecimalDigits n, c_isdigit c = true :=
  natDecimalDigitsGo_isdigit (n + 1) n (Nat.lt_succ_self n)

theorem natDecimalDigits_ne_nil (n : Nat) : natDecimalDigits n ≠ [] :=
  natDecimalDigitsGo_ne_nil (n + 1) n (Nat.lt_succ_self n)

theorem natDecimalDigits_no_tab (n : Nat) : ∀ c ∈ natDecimalDigits n, c ≠ '\t' :=
  fun c hc => isdigit_ne c '\t' (natDecimalDigits_isdigit n c hc) (by decide)

theorem atoi_natDecimal (n : Nat) : atoi (natDecimalDigits n) = (n : Int) := by
  obtain ⟨c, rest, hcr⟩ : ∃ c rest, natDecimalDigits n = c :: rest := by
    cases h : natDecimalDigits n with
    | nil => exact absurd h (natDecimalDigits_ne_nil n)
    | cons c rest => exact ⟨c, rest, rfl⟩
  have hcd : c_isdigit c = true := by
    apply natDecimalDigits_isdigit n
    rw [hcr]; exact List.mem_cons_self c rest
  have hspace : c_isspace c = false := isdigit_not_space c hcd
  have hminus : c ≠ '-' := isdigit_ne c '-' hcd (by decide)
  have hplus : c ≠ '+' := isdigit_ne c '+' hcd (by decide)
  have hdrop : List.dropWhile c_isspace (natDecimalDigits n) = c :: rest := by
    rw [hcr, List.dropWhile_cons, hspace]
    simp
  have hval : atoiDigitsAcc (natDecimalDigits n) 0 = n := by
    have := natDecimalDigitsGo_val (n + 1) n (Nat.lt_succ_self n) 0
    simpa [natDecimalDigits] using this
  simp only [atoi, hdrop, if_neg hminus, if_neg hplus]
  rw [← hcr, hval]

/-! ### The readline loop -/

theorem crlfEnd_append (buf : List Char) (ch : Char) :
    crlfEnd (buf ++ [ch]) = ((ch == '\n') && (buf.getLast? == some '\r')) := by
  unfold crlfEnd
  rw [List.reverse_append]
  simp only [List.reverse_singleton, List.singleton_append]
  cases hb : buf.reverse with
  | nil =>
    have hbl : buf.getLast? = none := by
      rw [← List.head?_reverse, hb]
      rfl
    simp [hbl]
  | cons a t =>
    have hbl : buf.getLast? = some a := by
      rw [← List.head?_reverse, hb]
      rfl
    simp [hbl]

theorem crlfEnd_false_of (buf : List Char) (c : Char)
    (h : buf.getLast? = some '\r' → c ≠ '\n') : crlfEnd (buf ++ [c]) = false := by
  rw [crlfEnd_append]
  cases hc : (c == '\n') with
  | false => simp
  | true =>
    have hc' : c = '\n' := by simpa using hc
    cases hl : (buf.getLast? == some '\r') with
    | false => simp
    | true =>
      have hl' : buf.getLast? = some '\r' := by simpa using hl
      exact absurd hc' (h hl')

theorem hasCRLF_cons_false (c : Char) (l : List Char) (h : hasCRLF (c :: l) = false) :
    hasCRLF l = false := by
  cases l with
  | nil => rfl
  | cons d t =>
    simp only [hasCRLF, Bool.or_eq_false_iff] at h
    exact h.2

theorem hasCRLF_head (c d : Char) (l : List Char) (h : hasCRLF (c :: d :: l) = false) :
    ¬(c = '\r' ∧ d = '\n') := by
  rintro ⟨rfl, rfl⟩
  simp [hasCRLF] at h

theorem readline_consume :
    ∀ (l buf rest : List Char) (bufsz : Nat),
      hasCRLF l = false →
      (buf.getLast? = some '\r' → l.head? ≠ some '\n') →
      buf.length + l.length + 2 < bufsz →
      readline_loop bufsz (l ++ '\r' :: '\n' :: rest) buf =
        some (buf ++ l ++ ['\r', '\n'], rest) := by
  intro l
  induction l with
  | nil =>
    intro buf rest bufsz _ _ hlen
    have h1 : crlfEnd (buf ++ ['\r']) = false := by
      apply crlfEnd_false_of
      intro _
      decide
    have h2 : crlfEnd ((buf ++ ['\r']) ++ ['\n']) = true := by
      rw [crlfEnd_append, List.getLast?_concat]
      decide
    simp only [List.nil_append, readline_loop, if_pos (by omega : buf.length + 1 < bufsz),
      h1, Bool.false_eq_true, if_false]
    have hlen2 : (buf ++ ['\r']).length + 1 < bufsz := by
      simp only [List.length_append, List.length_singleton]
      omega
    simp only [readline_loop, if_pos hlen2, h2, if_true]
    simp
  | cons c l' ih =>
    intro buf rest bufsz hfree hbd hlen
    have hcrlf : crlfEnd (buf ++ [c]) = false := by
      apply crlfEnd_false_of
      intro hlast hc
      exact hbd hlast (by rw [hc]; rfl)
    have hguard : buf.length + 1 < bufsz := by omega
    simp only [List.cons_append, readline_loop, if_pos hguard, hcrlf,
      Bool.false_eq_true, if_false]
    have hres := ih (buf ++ [c]) rest bufsz (hasCRLF_cons_false c l' hfree)
      (by
        rw [List.getLast?_concat]
        intro hcr
        have hc' : c = '\r' := by injection hcr
        cases l' with
        | nil => simp
        | cons d t =>
          intro hd
          have hd' : d = '\n' := by
            simp only [List.head?] at hd
            injection hd
          exact hasCRLF_head c d t hfree ⟨hc', hd'⟩)
      (by
        simp only [List.length_cons] at hlen
        simp only [List.length_append, List.length_singleton]
        omega)
    simpa using hres

theorem readline_fill :
    ∀ (m : Nat) (input buf : List Char) (bufsz : Nat),
      buf.length + m + 1 = bufsz →
      m ≤ input.length →
      hasCRLF (input.take m) = false →
      (buf.getLast? = some '\r' → (input.take m).head? ≠ some '\n') →
      readline_loop bufsz input buf = some (buf ++ input.take m, input.drop m) := by
  intro m
  induction m with
  | zero =>
    intro input buf bufsz hsz _ _ _
    cases input with
    | nil =>
      simp only [readline_loop, if_neg (by omega : ¬(buf.length + 1 < bufsz))]
      simp
    | cons ch rest =>
      simp only [readline_loop, if_neg (by omega : ¬(buf.length + 1 < bufsz))]
      simp
  | succ m ih =>
    intro input buf bufsz hsz hm hfree hbd
    cases input with
    | nil => simp at hm
    | cons ch rest =>
      have htake : (ch :: rest).take (m + 1) = ch :: rest.take m := rfl
      rw [htake] at hfree hbd
      have hcrlf : crlfEnd (buf ++ [ch]) = false := by
        apply crlfEnd_false_of
        intro hlast hc
        exact hbd hlast (by rw [hc]; rfl)
      have hguard : buf.length + 1 < bufsz := by omega
      simp only [readline_loop, if_pos hguard, hcrlf, Bool.false_eq_true, if_false]
      have hres := ih rest (buf ++ [ch]) bufsz
        (by simp only [List.length_append, List.length_singleton]; omega)
        (by simpa using hm)
        (hasCRLF_cons_false ch _ hfree)
        (by
          rw [List.getLast?_concat]
          intro hcr
          have hc' : ch = '\r' := by injection hcr
          cases hrt : rest.take m with
          | nil => simp
          | cons d t =>
            intro hd
            have hd' : d = '\n' := by
              simp only [List.head?] at hd
              injection hd
            rw [hrt] at hfree
            exact hasCRLF_head ch d t hfree ⟨hc', hd'⟩)
      rw [hres]
      simp

theorem readline_exhaust :
    ∀ (input buf : List Char) (bufsz : Nat),
      hasCRLF input = false →
      (buf.getLast? = some '\r' → input.head? ≠ some '\n') →
      buf.length + input.length + 1 < bufsz →
      readline_loop bufsz input buf = none := by
  intro input
  induction input with
  | nil =>
    intro buf bufsz _ _ hlen
    simp only [readline_loop, if_pos (by omega : buf.length + 1 < bufsz)]
  | cons ch rest ih =>
    intro buf bufsz hfree hbd hlen
    have hcrlf : crlfEnd (buf ++ [ch]) = false := by
      apply crlfEnd_false_of
      intro hlast hc
      exact hbd hlast (by rw [hc]; rfl)
    have hguard : buf.length + 1 < bufsz := by omega
    simp only [readline_loop, if_pos hguard, hcrlf, Bool.false_eq_true, if_false]
    apply ih (buf ++ [ch]) bufsz (hasCRLF_cons_false ch rest hfree)
    · rw [List.getLast?_concat]
      intro hcr
      have hc' : ch = '\r' := by injection hcr
      cases rest with
      | nil => simp
      | cons d t =>
        intro hd
        have hd' : d = '\n' := by
          simp only [List.head?] at hd
          injection hd
        exact hasCRLF_head ch d t hfree ⟨hc', hd'⟩
    · simp only [List.length_append, List.length_singleton, List.length_cons,
        List.length_nil] at hlen ⊢
      omega

theorem readline_loop_length :
    ∀ (input buf l r : List Char) (bufsz : Nat),
      readline_loop bufsz input buf = some (l, r) →
      l.length + 1 ≤ bufsz ∨ l = buf := by
  intro input
  induction input with
  | nil =>
    intro buf l r bufsz h
    by_cases hg : buf.length + 1 < bufsz
    · simp [readline_loop, hg] at h
    · simp only [readline_loop, if_neg hg, Option.some.injEq, Prod.mk.injEq] at h
      exact Or.inr h.1.symm
  | cons ch rest ih =>
    intro buf l r bufsz h
    by_cases hg : buf.length + 1 < bufsz
    · by_cases hc : crlfEnd (buf ++ [ch]) = true
      · simp only [readline_loop, if_pos hg, hc, if_true, Option.some.injEq,
          Prod.mk.injEq] at h
        left
        rw [← h.1]
        simp only [List.length_append, List.length_singleton]
        omega
      · simp only [readline_loop, if_pos hg, hc, if_false] at h
        rcases ih (buf ++ [ch]) l r bufsz (by simpa using h) with hl | hl
        · exact Or.inl hl
        · left
          rw [hl]
          simp only [List.length_append, List.length_singleton]
          omega
    · simp only [readline_loop, if_neg hg, Option.some.injEq, Prod.mk.injEq] at h
      exact Or.inr h.1.symm

/-! ### Multi-line reading -/

theorem stripCRLF_append_crlf (l : List Char) (h : lastNotCRLF l = true) :
    stripCRLF (l ++ crlf) = l := by
  unfold stripCRLF
  have hrev : (l ++ crlf).reverse = '\n' :: '\r' :: l.reverse := by
    simp [crlf]
  rw [hrev]
  rw [List.dropWhile_cons, if_pos (by decide), List.dropWhile_cons, if_pos (by decide)]
  cases hl : l.reverse with
  | nil =>
    simp only [List.dropWhile_nil, List.reverse_nil]
    exact (List.reverse_eq_nil_iff.mp hl).symm
  | cons a t =>
    have hlast : l.getLast? = some a := by
      rw [← List.head?_reverse, hl]
      rfl
    unfold lastNotCRLF at h
    rw [hlast] at h
    simp only [Bool.and_eq_true, Bool.not_eq_eq_eq_not, Bool.not_true,
      beq_eq_false_iff_ne] at h
    rw [List.dropWhile_cons, if_neg (by simp [h.1, h.2]), ← hl, List.reverse_reverse]

theorem multiline_go_encode :
    ∀ (ls : List (List Char)) (fuel : Nat),
      (encodeWire ls).length < fuel →
      (∀ l ∈ ls, lineOk l) →
      read_multiline_go fuel (encodeWire ls) = some (ls.map dotUnstuff) := by
  intro ls
  induction ls with
  | nil =>
    intro fuel hf _
    cases fuel with
    | zero => simp [encodeWire, crlf] at hf
    | succ fuel =>
      have hr : conn_readline (encodeWire []) BUFSZ = some (['.', '\r', '\n'], []) := by
        have := readline_consume ['.'] [] [] BUFSZ (by decide) (by simp)
          (by simp [BUFSZ])
        simpa [encodeWire, crlf, conn_readline] using this
      simp only [read_multiline_go, hr]
      have hs : stripCRLF ['.', '\r', '\n'] = ['.'] := by decide
      simp [hs]
  | cons l ls ih =>
    intro fuel hf hok
    obtain ⟨hcr, hdot, hlen, hlast⟩ := hok l (List.mem_cons_self l ls)
    cases fuel with
    | zero => simp at hf
    | succ fuel =>
      have hr : conn_readline (encodeWire (l :: ls)) BUFSZ
          = some (l ++ crlf, encodeWire ls) := by
        have := readline_consume l [] (encodeWire ls) BUFSZ hcr (by simp)
          (by simp only [List.length_nil, BUFSZ]; omega)
        simpa [encodeWire, crlf, conn_readline] using this
      have hs : stripCRLF (l ++ crlf) = l := stripCRLF_append_crlf l hlast
      simp only [read_multiline_go, hr, hs, if_neg hdot]
      have hfl : (encodeWire ls).length < fuel := by
        have hle : (encodeWire (l :: ls)).length
            = l.length + 2 + (encodeWire ls).length := by
          simp [encodeWire, crlf]
          omega
        omega
      rw [ih fuel hfl (fun x hx => hok x (List.mem_cons_of_mem l hx))]
      simp

theorem multiline_go_noterm :
    ∀ (ls : List (List Char)) (frag : List Char) (fuel : Nat),
      (∀ l ∈ ls, lineOk l) →
      hasCRLF frag = false →
      frag.length + 1 < BUFSZ →
      read_multiline_go fuel (encodeNoTerm ls frag) = none := by
  intro ls
  induction ls with
  | nil =>
    intro frag fuel _ hcr hlen
    cases fuel with
    | zero => rfl
    | succ fuel =>
      have hr : conn_readline frag BUFSZ = none :=
        readline_exhaust frag [] BUFSZ hcr (by simp) (by simpa using hlen)
      simp [read_multiline_go, encodeNoTerm, hr]
  | cons l ls ih =>
    intro frag fuel hok hcr hlen
    obtain ⟨hlcr, hdot, hllen, hlast⟩ := hok l (List.mem_cons_self l ls)
    cases fuel with
    | zero => rfl
    | succ fuel =>
      have hr : conn_readline (encodeNoTerm (l :: ls) frag) BUFSZ
          = some (l ++ crlf, encodeNoTerm ls frag) := by
        have := readline_consume l [] (encodeNoTerm ls frag) BUFSZ hlcr (by simp)
          (by simp only [List.length_nil, BUFSZ]; omega)
        simpa [encodeNoTerm, crlf, conn_readline] using this
      have hs : stripCRLF (l ++ crlf) = l := stripCRLF_append_crlf l hlast
      simp only [read_multiline_go, hr, hs, if_neg hdot]
      rw [ih frag fuel (fun x hx => hok x (List.mem_cons_of_mem l hx)) hcr hlen]

/-! ### Keyed tables -/

theorem map_update_no_match {κ ρ : Type} [DecidableEq κ] (k : κ) (r : ρ) :
    ∀ (t : List (κ × ρ)), (t.filter (fun e => decide (e.1 = k))).length = 0 →
      t.map (fun e => if e.1 = k then (e.1, r) else e) = t := by
  intro t
  induction t with
  | nil => intro _; rfl
  | cons e t ih =>
    intro h
    by_cases he : e.1 = k
    · rw [List.filter_cons, if_pos (by simpa using he)] at h
      simp at h
    · rw [List.filter_cons, if_neg (by simpa using he)] at h
      rw [List.map_cons, if_neg he, ih h]

theorem tableUpdate_no_match {κ ρ : Type} [DecidableEq κ] (k : κ) (r : ρ)
    (t : List (κ × ρ)) (h : (t.filter (fun e => decide (e.1 = k))).length = 0) :
    tableUpdate t k r = (t, 0) := by
  unfold tableUpdate
  rw [map_update_no_match k r t h, h]

/-! ### The HEAD retry loop and the worker drain loop -/

theorem head_try_all_none (f : Nat → Option (List Char)) :
    ∀ (rem attempt : Nat), (∀ j, j < rem → f (attempt + j) = none) →
      head_try f rem attempt = (none, rem) := by
  intro rem
  induction rem with
  | zero => intro attempt _; rfl
  | succ rem ih =>
    intro attempt h
    have h0 : f attempt = none := by simpa using h 0 (by omega)
    have hrec := ih (attempt + 1) (fun j hj => by
      have := h (j + 1) (by omega)
      rwa [show attempt + (j + 1) = attempt + 1 + j by omega] at this)
    simp only [head_try, h0, hrec]

theorem head_try_calls_le (f : Nat → Option (List Char)) :
    ∀ (rem attempt : Nat), (head_try f rem attempt).2 ≤ rem := by
  intro rem
  induction rem with
  | zero => intro attempt; simp [head_try]
  | succ rem ih =>
    intro attempt
    simp only [head_try]
    cases hf : f attempt with
    | some h => simp
    | none =>
      simp only
      have := ih (attempt + 1)
      omega

theorem head_try_first (f : Nat → Option (List Char)) (h : List Char) :
    ∀ (k rem attempt : Nat), (∀ j, j < k → f (attempt + j) = none) →
      f (attempt + k) = some h → k < rem →
      head_try f rem attempt = (some h, k + 1) := by
  intro k
  induction k with
  | zero =>
    intro rem attempt _ hk hlt
    cases rem with
    | zero => omega
    | succ rem =>
      have hk' : f attempt = some h := by simpa using hk
      simp [head_try, hk']
  | succ k ih =>
    intro rem attempt hnone hk hlt
    cases rem with
    | zero => omega
    | succ rem =>
      have h0 : f attempt = none := by simpa using hnone 0 (by omega)
      have hrec := ih rem (attempt + 1)
        (fun j hj => by
          have := hnone (j + 1) (by omega)
          rwa [show attempt + (j + 1) = attempt + 1 + j by omega] at this)
        (by rwa [show attempt + 1 + k = attempt + (k + 1) by omega])
        (by omega)
      simp only [head_try, h0, hrec]

theorem worker_skip (prepared upsert : Bool) (resp : Int → Nat → Option (List Char))
    (retries : Nat) (grp : List Char) (n : Int)
    (hn : (head_try (resp n) (retries + 1) 0).1 = none) :
    ∀ (q1 q2 : List Int) (t : ArticlesTable),
      head_worker_run prepared upsert resp retries grp (q1 ++ n :: q2) t =
        head_worker_run prepared upsert resp retries grp (q1 ++ q2) t := by
  intro q1
  induction q1 with
  | nil =>
    intro q2 t
    simp only [List.nil_append, head_worker_run, hn]
  | cons m q1 ih =>
    intro q2 t
    simp only [List.cons_append, head_worker_run]
    cases hm : (head_try (resp m) (retries + 1) 0).1 with
    | none => exact ih q2 t
    | some hdrs => exact ih q2 _

/-! ### The enqueue loop -/

theorem ascRange_succ (a : Int) (n : Nat) :
    ascRange a (n + 1) = a :: ascRange (a + 1) n := by
  unfold ascRange
  rw [List.range_succ_eq_map, List.map_cons, List.map_map]
  congr 1
  · show a + ((0 : Nat) : Int) = a
    simp
  · congr 1
    funext i
    simp only [Function.comp_apply, Nat.succ_eq_add_one]
    push_cast
    ring

theorem enqueue_range_items :
    ∀ (n : Nat) (q : WorkQueue) (a : Int), q.items.length + n ≤ q.capacity →
      (enqueue_range q a n).items = q.items ++ ascRange a n := by
  intro n
  induction n with
  | zero => intro q a _; simp [enqueue_range, ascRange]
  | succ n ih =>
    intro q a h
    have hpush : queue_push q a = ⟨q.items ++ [a], q.capacity⟩ := by
      unfold queue_push
      rw [if_pos (by omega)]
    simp only [enqueue_range, hpush]
    rw [ih ⟨q.items ++ [a], q.capacity⟩ (a + 1)
      (by simp only [List.length_append, List.length_singleton]; omega)]
    rw [ascRange_succ]
    simp

/-! ### The header scan -/

theorem header_step_no_key (st : HeadFields) (line : List Char)
    (h : matchesNoHeaderKey (line.dropWhile c_isspace) = true) :
    header_step st line = st := by
  simp only [matchesNoHeaderKey, Bool.and_eq_true, Bool.not_eq_true'] at h
  obtain ⟨⟨⟨⟨⟨⟨h1, h2⟩, h3⟩, h4⟩, h5⟩, h6⟩, h7⟩ := h
  simp [header_step, h1, h2, h3, h4, h5, h6, h7]

/-- A well-behaved overview string field: non-empty and free of embedded
tabs, carriage returns and line feeds. -/
def fieldOk (l : List Char) : Prop :=
  l ≠ [] ∧ ∀ c ∈ l, c ≠ '\t' ∧ c ≠ '\r' ∧ c ≠ '\n'

instance (l : List Char) : Decidable (fieldOk l) := by
  unfold fieldOk; infer_instance

theorem parse_of_tokens (line f0 f1 f2 f3 f4 f5 f6 f7 : List Char)
    (htok : tokens '\t' line = [f0, f1, f2, f3, f4, f5, f6, f7]) :
    parse_xover_line line =
      { artnum := atoi f0, subject := f1, author := f2, date := f3,
        message_id := f4, references := f5, bytes := atoi f6, lines := atoi f7 } := by
  unfold parse_xover_line
  rw [htok]
  rfl

/-! ## Claim theorems -/

/-- C3 counterexample input: an eight-field tuple with an empty subject
(and no embedded tabs or CR LF anywhere). -/
def c3_bad_tuple : XoverTuple :=
  ⟨1, [], ['a'], ['d'], ['m'], ['r'], 2, 3⟩

/-- C3 counterexample: with an empty subject field the strtok_r-based
parser collapses the two adjacent tabs of the joined line, shifting every
later field one position left, so parsing the tab-joined tuple does not
return the tuple.  The claim quantifies over all tuples whose string
fields merely avoid tabs and CR LF, which this tuple does. -/
theorem spec_c3_counterexample :
    parse_xover_line (join8 c3_bad_tuple) ≠ tupleToFields c3_bad_tuple := by
  decide

/-- C3 (amended): overview-line parsing is a left-inverse of tab-joining
for every eight-field tuple whose string fields are non-empty and contain
no embedded tabs or CR LF; fields are taken in fixed positional order. -/
theorem spec_c3_claim (t : XoverTuple)
    (hs : fieldOk t.subject) (ha : fieldOk t.author) (hd : fieldOk t.date)
    (hm : fieldOk t.message_id) (hr : fieldOk t.references) :
    parse_xover_line (join8 t) = tupleToFields t := by
  have htok : tokens '\t' (join8 t) =
      [natDecimalDigits t.artnum, t.subject, t.author, t.date, t.message_id,
       t.references, natDecimalDigits t.bytes, natDecimalDigits t.lines] := by
    unfold join8
    rw [tokens_cons _ _ _ (natDecimalDigits_ne_nil _) (natDecimalDigits_no_tab _),
      tokens_cons _ _ _ hs.1 (fun c hc => (hs.2 c hc).1),
      tokens_cons _ _ _ ha.1 (fun c hc => (ha.2 c hc).1),
      tokens_cons _ _ _ hd.1 (fun c hc => (hd.2 c hc).1),
      tokens_cons _ _ _ hm.1 (fun c hc => (hm.2 c hc).1),
      tokens_cons _ _ _ hr.1 (fun c hc => (hr.2 c hc).1),
      tokens_cons _ _ _ (natDecimalDigits_ne_nil _) (natDecimalDigits_no_tab _),
      tokens_single _ _ (natDecimalDigits_ne_nil _) (natDecimalDigits_no_tab _)]
  rw [parse_of_tokens _ _ _ _ _ _ _ _ _ htok]
  unfold tupleToFields
  simp [atoi_natDecimal]

/-- C3 witness input: a concrete tuple with non-empty tab-free fields. -/
def c3_good_tuple : XoverTuple :=
  ⟨12, ['s'], ['a'], ['d'], ['m'], ['r'], 34, 5⟩

/-- C3 witness: the round trip at a concrete tuple. -/
theorem spec_c3_witness :
    parse_xover_line (join8 c3_good_tuple) = tupleToFields c3_good_tuple :=
  spec_c3_claim c3_good_tuple (by decide) (by decide) (by decide) (by decide)
    (by decide)

/-- C5 counterexample: the header block Subject colon a, newline, space b
is a folded header; the claim says the continuation is appended giving
subject a-space-b, but extract_from_headers ignores the continuation line
and leaves subject as just a. -/
theorem spec_c5_counterexample :
    (extract_from_headers ("Subject: a".data ++ ('\n' :: " b".data))).subject
        = "a".data
      ∧ "a".data ≠ "a b".data := by
  decide

/-- C5 (amended): a continuation line is not appended to the previous
field; after stripping its leading whitespace it is matched like any
other line, and when it starts with none of the known header keys it is
ignored, leaving the parse exactly as if the line were absent. -/
theorem spec_c5_claim (h1 h2 line : List Char)
    (hne : line ≠ []) (hnl : ∀ c ∈ line, c ≠ '\n')
    (hkey : matchesNoHeaderKey (line.dropWhile c_isspace) = true) :
    extract_from_headers (h1 ++ ('\n' :: (line ++ ('\n' :: h2)))) =
      extract_from_headers (h1 ++ ('\n' :: h2)) := by
  have ht1 : tokens '\n' (h1 ++ ('\n' :: (line ++ ('\n' :: h2))))
      = tokens '\n' h1 ++ tokens '\n' (line ++ ('\n' :: h2)) :=
    ctokAux_append '\n' h1 (line ++ ('\n' :: h2)) []
  have ht2 : tokens '\n' (line ++ ('\n' :: h2)) = line :: tokens '\n' h2 :=
    tokens_cons '\n' line h2 hne hnl
  have ht3 : tokens '\n' (h1 ++ ('\n' :: h2)) = tokens '\n' h1 ++ tokens '\n' h2 :=
    ctokAux_append '\n' h1 h2 []
  unfold extract_from_headers
  rw [ht1, ht2, ht3, List.foldl_append, List.foldl_append, List.foldl_cons,
    header_step_no_key _ line hkey]

/-- C5 witness: inserting the folded line space b between two header
lines leaves the parsed fields unchanged. -/
theorem spec_c5_witness :
    extract_from_headers ("Subject: a".data ++ ('\n' :: (" b".data ++ ('\n' :: "Date: d".data)))) =
      extract_from_headers ("Subject: a".data ++ ('\n' :: "Date: d".data)) :=
  spec_c5_claim "Subject: a".data "Date: d".data " b".data (by decide) (by decide)
    (by decide)

/-- C6: for a positive limit the fetch range is last minus limit plus one
clamped to first (that is, the maximum of the two) up to last when the
limit is below the range size, and the whole range otherwise; the work
queue of the per-article path then holds exactly the article numbers of
that range in increasing order (ascRange lists them ascending). -/
theorem spec_c6_claim (L F Lst : Int) (hL : 0 < L) :
    (compute_fetch_range L F Lst).1
        = (if L < Lst - F + 1 then max F (Lst - L + 1) else F)
      ∧ (compute_fetch_range L F Lst).2 = Lst
      ∧ (main_enqueue (compute_fetch_range L F Lst).1
            (compute_fetch_range L F Lst).2).items
          = ascRange (compute_fetch_range L F Lst).1
              ((compute_fetch_range L F Lst).2 + 1
                - (compute_fetch_range L F Lst).1).toNat := by
  have hq : ∀ ff fl : Int, (main_enqueue ff fl).items = ascRange ff (fl + 1 - ff).toNat := by
    intro ff fl
    unfold main_enqueue
    rw [enqueue_range_items _ (queue_init (fl + 1 - ff).toNat) ff (by simp [queue_init])]
    simp [queue_init]
  refine ⟨?_, ?_, ?_⟩
  · unfold compute_fetch_range
    rw [if_pos hL]
    by_cases h1 : L < Lst - F + 1
    · rw [if_pos h1, if_pos h1]
      show (if Lst - L + 1 < F then F else Lst - L + 1) = max F (Lst - L + 1)
      rw [max_def]
      split_ifs <;> omega
    · rw [if_neg h1, if_neg h1]
  · unfold compute_fetch_range
    rw [if_pos hL]
    by_cases h1 : L < Lst - F + 1
    · rw [if_pos h1]
    · rw [if_neg h1]
  · exact hq _ _

/-- C6 witness: limit 2 on range 1 to 5 enqueues exactly 4 and 5. -/
theorem spec_c6_witness :
    (compute_fetch_range 2 1 5).1
        = (if (2 : Int) < 5 - 1 + 1 then max 1 (5 - 2 + 1) else 1)
      ∧ (compute_fetch_range 2 1 5).2 = 5
      ∧ (main_enqueue (compute_fetch_range 2 1 5).1
            (compute_fetch_range 2 1 5).2).items
          = ascRange (compute_fetch_range 2 1 5).1
              ((compute_fetch_range 2 1 5).2 + 1
                - (compute_fetch_range 2 1 5).1).toNat :=
  spec_c6_claim 2 1 5 (by decide)

/-- C7: the worker issues HEAD at most retries plus one times per popped
article and stops at the first non-empty response; when every attempt up
to the retry cap yields an empty response, the retry loop reports failure
after exactly retries plus one HEAD commands, and the article is skipped:
the store after draining a queue containing it equals the store after
draining the queue without it, so no row is written for it, other
articles are unaffected, and the (total) drain completes. -/
theorem spec_c7_claim (resp : Int → Nat → Option (List Char)) (retries : Nat)
    (n : Int) (prepared upsert : Bool) (grp : List Char) (q1 q2 : List Int)
    (t : ArticlesTable)
    (hfail : ∀ k, k ≤ retries → resp n k = none) :
    head_try (resp n) (retries + 1) 0 = (none, retries + 1)
      ∧ (∀ f : Nat → Option (List Char), (head_try f (retries + 1) 0).2 ≤ retries + 1)
      ∧ (∀ (f : Nat → Option (List Char)) (k : Nat) (h : List Char), k ≤ retries →
          (∀ j, j < k → f j = none) → f k = some h →
          head_try f (retries + 1) 0 = (some h, k + 1))
      ∧ head_worker_run prepared upsert resp retries grp (q1 ++ n :: q2) t
          = head_worker_run prepared upsert resp retries grp (q1 ++ q2) t := by
  have hnone : head_try (resp n) (retries + 1) 0 = (none, retries + 1) :=
    head_try_all_none (resp n) (retries + 1) 0
      (fun j hj => by simpa using hfail j (by omega))
  refine ⟨hnone, fun f => head_try_calls_le f (retries + 1) 0, ?_, ?_⟩
  · intro f k h hk hprev hhit
    exact head_try_first f h k (retries + 1) 0 (fun j hj => by simpa using hprev j hj)
      (by simpa using hhit) (by omega)
  · exact worker_skip prepared upsert resp retries grp n (by rw [hnone]) q1 q2 t

/-- C7 witness: retries 2, a server that always rejects article 42, queue
1, 42, 43: the retry loop fails after three HEAD commands and draining
the queue equals draining it without 42. -/
theorem spec_c7_witness :
    head_try ((fun _ _ => none : Int → Nat → Option (List Char)) 42) (2 + 1) 0
        = (none, 2 + 1)
      ∧ (∀ f : Nat → Option (List Char), (head_try f (2 + 1) 0).2 ≤ 2 + 1)
      ∧ (∀ (f : Nat → Option (List Char)) (k : Nat) (h : List Char), k ≤ 2 →
          (∀ j, j < k → f j = none) → f k = some h →
          head_try f (2 + 1) 0 = (some h, k + 1))
      ∧ head_worker_run true true (fun _ _ => none) 2 ['g'] ([1] ++ 42 :: [43]) []
          = head_worker_run true true (fun _ _ => none) 2 ['g'] ([1] ++ [43]) [] :=
  spec_c7_claim (fun _ _ => none) 2 42 true true ['g'] [1] [43] []
    (fun _ _ => rfl)

/-- C1: on the prepared-statement path db_insert_article first executes
the update statement (the head of its statement trace) and reads the
affected-row count; when the count is zero and the upsert flag is on it
executes the insert statement with the same values, and when the count is
zero and the flag is off it logs the not-found warning and performs no
insert, leaving the articles table unchanged. -/
theorem spec_c1_claim (upsert : Bool) (t : ArticlesTable) (grp : List Char)
    (art : Int) (r : ArticleRow)
    (h : matchCount t (grp, art) = 0) :
    (db_insert_article true upsert t grp art r).2.head?
        = some (DbAction.updateArticle (grp, art) r)
      ∧ db_insert_article true upsert t grp art r
          = (if upsert then
              (t ++ [((grp, art), r)],
               [DbAction.updateArticle (grp, art) r,
                DbAction.insertArticle (grp, art) r])
             else
              (t, [DbAction.updateArticle (grp, art) r,
                   DbAction.warnArticleNotFound (grp, art)])) := by
  have h' : (t.filter (fun e => decide (e.1 = (grp, art)))).length = 0 := h
  have hu : tableUpdate t (grp, art) r = (t, 0) := tableUpdate_no_match _ r t h'
  constructor
  · cases upsert <;> simp [db_insert_article, hu]
  · cases upsert <;> simp [db_insert_article, hu]

/-- C1 witness row. -/
def c1_row : ArticleRow := ⟨['s'], ['a'], ['d'], ['m'], ['r'], 10, 2⟩

/-- C1 witness: inserting into an empty store with upsert on runs update
then insert. -/
theorem spec_c1_witness :
    (db_insert_article true true [] ['g'] 7 c1_row).2.head?
        = some (DbAction.updateArticle (['g'], 7) c1_row)
      ∧ db_insert_article true true [] ['g'] 7 c1_row
          = (if true then
              (([] : ArticlesTable) ++ [((['g'], 7), c1_row)],
               [DbAction.updateArticle (['g'], 7) c1_row,
                DbAction.insertArticle (['g'], 7) c1_row])
             else
              (([] : ArticlesTable),
               [DbAction.updateArticle (['g'], 7) c1_row,
                DbAction.warnArticleNotFound (['g'], 7)])) :=
  spec_c1_claim true [] ['g'] 7 c1_row (by decide)

set_option maxRecDepth 8192 in
/-- C2 counterexample: with the upsert flag off (the default), selecting
a group absent from the store and ingesting it empty exits 0 but leaves
the groups table without any row for the group, not exactly one row as
the claim states. -/
theorem spec_c2_counterexample :
    main_group_phase false 0 "211 0 0 0 misc.test\r\n".data "misc.test".data [] []
        = PhaseResult.doneEmpty [] [] 0
      ∧ (([] : GroupsTable).filter
          (fun e => decide (e.1 = "misc.test".data))).length ≠ 1 := by
  decide

/-- C2 (amended): with the upsert flag set, a group row is created on the
first successful selection of a group absent from the store: the groups
table then contains exactly one row for the group carrying the returned
count, first and last; in particular an empty group (count 0) ends the
run through the clean exit 0 with that one groups row and the articles
table untouched. -/
theorem spec_c2_claim (limit cnt f l : Int) (input name buf rest : List Char)
    (g : GroupsTable) (a : ArticlesTable)
    (hread : conn_readline input BUFSZ = some (buf, rest))
    (hcode : 200 ≤ atoi buf ∧ atoi buf < 300)
    (hscan : scan_group buf = (cnt, f, l))
    (habs : g.filter (fun e => decide (e.1 = name)) = []) :
    ((db_insert_group true g name cnt f l).1.filter
        (fun e => decide (e.1 = name))) = [(name, ⟨cnt, f, l⟩)]
      ∧ (cnt = 0 → main_group_phase true limit input name g a
          = PhaseResult.doneEmpty (g ++ [(name, ⟨0, f, l⟩)]) a 0) := by
  have hu : tableUpdate g name (⟨cnt, f, l⟩ : GroupRow) = (g, 0) :=
    tableUpdate_no_match name _ g (by rw [habs]; rfl)
  have hg : db_insert_group true g name cnt f l
      = (g ++ [(name, ⟨cnt, f, l⟩)],
         [DbAction.updateGroup name ⟨cnt, f, l⟩,
          DbAction.insertGroup name ⟨cnt, f, l⟩]) := by
    simp [db_insert_group, hu]
  constructor
  · rw [hg, List.filter_append, habs]
    simp
  · intro hcnt
    subst hcnt
    obtain ⟨hc1, hc2⟩ := hcode
    have hng : nntp_group input 0 0 0 = (atoi buf, 0, f, l) := by
      unfold nntp_group
      simp only [hread]
      rw [if_pos ⟨hc1, hc2⟩, hscan]
    unfold main_group_phase
    rw [hng]
    rw [if_neg (by simp only; omega)]
    rw [hg]
    simp

/-- C2 witness: the empty-group scenario at the literal reply line. -/
theorem spec_c2_witness :
    ((db_insert_group true [] "misc.test".data 0 0 0).1.filter
        (fun e => decide (e.1 = "misc.test".data)))
          = [("misc.test".data, ⟨0, 0, 0⟩)]
      ∧ ((0 : Int) = 0 → main_group_phase true 0 "211 0 0 0 misc.test\r\n".data
            "misc.test".data [] []
          = PhaseResult.doneEmpty ([] ++ [("misc.test".data, ⟨0, 0, 0⟩)]) [] 0) :=
  spec_c2_claim 0 0 0 0 "211 0 0 0 misc.test\r\n".data "misc.test".data
    "211 0 0 0 misc.test\r\n".data [] [] [] (by decide) (by decide) (by decide)
    (by decide)

theorem hasCRLF_no_cr : ∀ l : List Char, (∀ c ∈ l, c ≠ '\r') → hasCRLF l = false := by
  intro l
  induction l with
  | nil => intro _; rfl
  | cons a rest ih =>
    intro h
    cases hr : rest with
    | nil => rfl
    | cons b t =>
      simp only [hasCRLF, Bool.or_eq_false_iff]
      refine ⟨?_, ?_⟩
      · have ha : a ≠ '\r' := h a (List.mem_cons_self _ _)
        simp [ha]
      · rw [← hr]
        exact ih (fun c hc => h c (List.mem_cons_of_mem a hc))

/-- C4 counterexample: an incoming line of 9000 bytes with no CR LF
exceeds the 8192-byte buffer; conn_readline truncates it to 8191 bytes
but returns a some result, the same success shape as any ordinary read,
instead of any distinguishable overflow error (none, the -1 return, is
reserved for transport close or failure). -/
theorem spec_c4_counterexample :
    conn_readline (List.replicate 9000 'a') BUFSZ
        = some (List.replicate 8191 'a', List.replicate 809 'a')
      ∧ conn_readline (List.replicate 9000 'a') BUFSZ ≠ none := by
  have hnc : hasCRLF ((List.replicate 9000 'a').take 8191) = false := by
    rw [List.take_replicate]
    exact hasCRLF_no_cr _ (fun c hc => by
      have hca := List.eq_of_mem_replicate hc
      simp [hca])
  have hfill := readline_fill 8191 (List.replicate 9000 'a') [] BUFSZ
    (by norm_num [BUFSZ]) (by norm_num) hnc (by intro hx; simp at hx)
  have heq : conn_readline (List.replicate 9000 'a') BUFSZ
      = some (List.replicate 8191 'a', List.replicate 809 'a') := by
    unfold conn_readline
    rw [hfill]
    rw [List.take_replicate, List.drop_replicate]
    norm_num
  exact ⟨heq, by rw [heq]; exact Option.some_ne_none _⟩

/-- C4 (amended): conn_readline stores at most 8191 bytes of the 8192
byte buffer (the last byte holds the terminator); a line exceeding the
buffer is truncated to its first 8191 bytes and returned as a normal
successful read together with the unread remainder, with no distinct
overflow error; every successful read returns at most 8191 bytes. -/
theorem spec_c4_claim (input : List Char)
    (hlen : 8191 ≤ input.length)
    (hnc : hasCRLF (input.take 8191) = false) :
    conn_readline input BUFSZ = some (input.take 8191, input.drop 8191)
      ∧ (input.take 8191).length = 8191
      ∧ ∀ l r, conn_readline input BUFSZ = some (l, r) → l.length ≤ 8191 := by
  have hfill := readline_fill 8191 input [] BUFSZ (by norm_num [BUFSZ]) hlen hnc
    (by intro hx; simp at hx)
  refine ⟨by simpa [conn_readline] using hfill, ?_, ?_⟩
  · rw [List.length_take]
    omega
  · intro l r hlr
    rcases readline_loop_length input [] l r BUFSZ hlr with hb | hb
    · simp only [BUFSZ] at hb
      omega
    · rw [hb]
      simp

/-- C4 witness: the truncation at the concrete 9000-byte line. -/
theorem spec_c4_witness :
    conn_readline (List.replicate 9000 'a') BUFSZ
        = some ((List.replicate 9000 'a').take 8191, (List.replicate 9000 'a').drop 8191)
      ∧ (((List.replicate 9000 'a').take 8191)).length = 8191
      ∧ ∀ l r, conn_readline (List.replicate 9000 'a') BUFSZ = some (l, r) →
          l.length ≤ 8191 :=
  spec_c4_claim (List.replicate 9000 'a') (by norm_num)
    (by
      rw [List.take_replicate]
      exact hasCRLF_no_cr _ (fun c hc => by
        have hca := List.eq_of_mem_replicate hc
        simp [hca]))

/-- C8: reading a well-formed dot-terminated body returns exactly the
wire lines with dot-unstuffing applied: a content line that began with a
dot on the wire has exactly that one leading dot removed (dotUnstuff
drops one leading dot and nothing else), and the terminating lone-dot
line is consumed but never appears among the returned content lines. -/
theorem spec_c8_claim (ls : List (List Char)) (h : ∀ l ∈ ls, lineOk l) :
    multiline_lines (encodeWire ls) = some (ls.map dotUnstuff)
      ∧ conn_read_multiline (encodeWire ls)
          = some (((ls.map dotUnstuff).map (fun l => l ++ ['\n'])).flatten)
      ∧ ∀ l : List Char, dotUnstuff ('.' :: l) = l := by
  have hm : multiline_lines (encodeWire ls) = some (ls.map dotUnstuff) :=
    multiline_go_encode ls _ (Nat.lt_succ_self _) h
  refine ⟨hm, ?_, fun l => by simp [dotUnstuff]⟩
  unfold conn_read_multiline
  rw [hm]

/-- C8 witness: the body dot-dot, a ends as the lines dot and a. -/
theorem spec_c8_witness :
    multiline_lines (encodeWire [['.', '.'], ['a']])
        = some ([['.', '.'], ['a']].map dotUnstuff)
      ∧ conn_read_multiline (encodeWire [['.', '.'], ['a']])
          = some ((([['.', '.'], ['a']].map dotUnstuff).map (fun l => l ++ ['\n'])).flatten)
      ∧ ∀ l : List Char, dotUnstuff ('.' :: l) = l :=
  spec_c8_claim [['.', '.'], ['a']] (by decide)

/-- C9: when the transport closes before the terminating lone-dot line
(after any number of complete lines and an unterminated fragment),
conn_read_multiline returns NULL, here none: the partially accumulated
content is freed and never exposed, so multi-line reading is
all-or-nothing. -/
theorem spec_c9_claim (ls : List (List Char)) (frag : List Char)
    (h : ∀ l ∈ ls, lineOk l) (hcr : hasCRLF frag = false)
    (hlen : frag.length + 1 < BUFSZ) :
    multiline_lines (encodeNoTerm ls frag) = none
      ∧ conn_read_multiline (encodeNoTerm ls frag) = none := by
  have hm : multiline_lines (encodeNoTerm ls frag) = none :=
    multiline_go_noterm ls frag _ h hcr hlen
  refine ⟨hm, ?_⟩
  unfold conn_read_multiline
  rw [hm]

/-- C9 witness: one complete line a then a cut-off fragment b. -/
theorem spec_c9_witness :
    multiline_lines (encodeNoTerm [['a']] ['b']) = none
      ∧ conn_read_multiline (encodeNoTerm [['a']] ['b']) = none :=
  spec_c9_claim [['a']] ['b'] (by decide) (by decide) (by decide)

/-- C10: nntp_group assigns its count, first and last output parameters
only on a 2xx reply: on a read failure it returns -1 with the three
outputs unchanged, and on any reply whose status code lies outside 200
to 299 it returns that code with the three outputs unchanged. -/
theorem spec_c10_claim (input : List Char) (c f l : Int) :
    (conn_readline input BUFSZ = none → nntp_group input c f l = (-1, c, f, l))
      ∧ ∀ buf rest, conn_readline input BUFSZ = some (buf, rest) →
          ¬(200 ≤ atoi buf ∧ atoi buf < 300) →
          nntp_group input c f l = (atoi buf, c, f, l) := by
  constructor
  · intro h
    unfold nntp_group
    rw [h]
  · intro buf rest h hc
    unfold nntp_group
    simp only [h]
    rw [if_neg hc]

/-- C10 witness: a 500 reply leaves 7, 8, 9 untouched. -/
theorem spec_c10_witness :
    nntp_group "500 oops\r\n".data 7 8 9 = (atoi "500 oops\r\n".data, 7, 8, 9) :=
  (spec_c10_claim "500 oops\r\n".data 7 8 9).2 "500 oops\r\n".data [] (by decide)
    (by decide)

end Nntp2Sql
